import Mathlib

/-!
Verification of the django-document-manager core (models/models.py) against its
natural-language specification.

Shallow embedding conventions:
* Database rows become Lean structures; UUIDs are modelled as `Nat`.
* The SHA-256 content digest of an uploaded file is abstracted as a `hash`
  field of the file value (a deterministic function of the byte content);
  no claim depends on properties of the hash function itself.
* A Django `transaction.atomic` block that raises is a rollback: operations
  return `Except`, and a run of operations leaves the state unchanged on error.
* The audited base manager of `django_crud_audit` (an external dependency)
  does not filter soft-deleted rows: `DocumentVersion.save` and
  `DocumentManager.get_queryset` re-filter `date_deleted__isnull=True`
  explicitly, which would be redundant otherwise.  Version-store lookups are
  therefore modelled over all rows, with explicit non-deleted filters exactly
  where the source has them.
-/

deriving instance DecidableEq for Except

namespace DocMgr

/-- `DocumentType` (models.py lines 40-77): per-type validation rules.
`max_count_per_owner` is absent in the v0.1.5 sources under `src/`. -/
structure DocumentType where
  code : String
  name : String
  file_extensions : List String
  max_file_size_mb : Nat
  requires_validation : Bool := false
  is_financial : Bool := false
deriving DecidableEq, Repr

/-- An uploaded file as the version store sees it: its name, its byte size
(`self.file.size`), and its content digest (`compute_file_hash`, abstracted:
equal contents have equal digests). -/
structure UploadedFile where
  name : String
  size : Nat
  hash : String
deriving DecidableEq, Repr

/-- Index of the last occurrence of `c` in `cs`, scanning left to right. -/
def lastIdxOf (cs : List Char) (c : Char) : Option Nat :=
  (List.range cs.length).foldl
    (fun acc i => if cs.get? i = some c then some i else acc) none

/-- The extension part of Python `os.path.splitext`, dot included: the suffix
from the last dot, provided that dot lies after the last path separator and
the basename up to it is not made of dots only. -/
def splitextExt (p : String) : String :=
  let cs := p.toList
  let sepIdx : Int := match lastIdxOf cs '/' with
    | some i => (i : Int)
    | none => -1
  match lastIdxOf cs '.' with
  | none => ""
  | some d =>
    let start : Nat := (sepIdx + 1).toNat
    if (d : Int) > sepIdx ∧
        (List.range' start (d - start)).any (fun i => cs.get? i ≠ some '.') then
      String.mk (cs.drop d)
    else ""

/-- ASCII lower-casing of one character (file extensions are ASCII in
practice; Python `str.lower()` agrees on that range). -/
def charLower (c : Char) : Char :=
  if 'A' ≤ c ∧ c ≤ 'Z' then Char.ofNat (c.toNat + 32) else c

/-- Python `str.lower()` on the character list. -/
def strLower (s : String) : String :=
  String.mk (s.toList.map charLower)

/-- Python `str.lstrip('.')`: remove every leading dot. -/
def lstripDots (s : String) : String :=
  String.mk (s.toList.dropWhile (fun c => c = '.'))

/-- Extension check of `DocumentVersion.clean` (models.py lines 238-249):
the lower-cased, dot-stripped suffix of the filename must be one of the
normalized allowed extensions. -/
def extensionOk (dt : DocumentType) (filename : String) : Bool :=
  let fileExt := lstripDots (strLower (splitextExt filename))
  let allowed := dt.file_extensions.map (fun e => strLower (lstripDots e))
  allowed.contains fileExt

/-- Size check of `DocumentVersion.clean` (models.py lines 259-271):
the source compares `self.file.size / (1024 * 1024) > max_size_mb`.  For a
byte count below 2^53 the Python float quotient by the power of two 2^20 is
exact, so the comparison equals the exact rational one, which over the
integers in play is the integer comparison below (`sizeExceeds_iff_div`
proves the equivalence with the division form; the integer form keeps the
definition kernel-executable). -/
def sizeExceeds (dt : DocumentType) (size : Nat) : Bool :=
  decide (dt.max_file_size_mb * (1024 * 1024) < size)

/-- Issue codes raised by `DocumentVersion.clean`. -/
inductive FileIssue where
  | invalid_extension
  | file_too_large
deriving DecidableEq, Repr

/-- `DocumentVersion.clean` (models.py lines 221-271), as the list of issues
it reports.  The source raises `ValidationError` at the first violation, so
the result holds at most one issue: an invalid extension aborts before the
size check runs. -/
def cleanIssues (dt : DocumentType) (f : UploadedFile) : List FileIssue :=
  if dt.file_extensions ≠ [] ∧ extensionOk dt f.name = false then
    [FileIssue.invalid_extension]
  else if sizeExceeds dt f.size then
    [FileIssue.file_too_large]
  else []

/-- A `DocumentVersion` row (models.py lines 127-206).  `pk` is the primary
key (fresh per document store), `deleted` models a set `date_deleted`
timestamp.  Fields not touched by any claim (MIME type, replaced_by,
document_date) are omitted. -/
structure VRow where
  pk : Nat
  version : Nat
  file_hash : String
  is_current : Bool
  deleted : Bool
  file_size_bytes : Nat
  file_original_name : String
deriving DecidableEq, Repr

/-- The version rows of one document, in creation (insertion) order. -/
structure DocState where
  rows : List VRow
deriving DecidableEq, Repr

/-- Step of the `first()` lookup under the model Meta ordering
`['document', '-version']`: keep the candidate of greatest version number. -/
def pickMaxVersion (acc : Option VRow) (r : VRow) : Option VRow :=
  match acc with
  | none => some r
  | some m => if r.version > m.version then some r else some m

/-- One step of `filter(...).first()` under the `-version` ordering. -/
def fbStep (p : VRow → Bool) (acc : Option VRow) (r : VRow) : Option VRow :=
  if p r then pickMaxVersion acc r else acc

/-- `filter(...).first()` under the model Meta ordering `-version`: the
matching row of greatest version number. -/
def firstByDescVersion (p : VRow → Bool) (rows : List VRow) : Option VRow :=
  rows.foldl (fbStep p) none

/-- `Document.get_current_version` (models.py lines 840-844):
`self.versions.filter(is_current=True).first()` — the current-flagged row of
greatest version number (Meta ordering `-version`), over all rows of the
document (the audited base manager does not exclude soft-deleted rows). -/
def getCurrentVersion (st : DocState) : Option VRow :=
  firstByDescVersion (fun r => r.is_current) st.rows

/-- Duplicate lookup of `Document.save_new_version` (models.py lines 759-762):
`DocumentVersion.objects.filter(document=self, file_hash=file_hash).first()`. -/
def findByHash (st : DocState) (h : String) : Option VRow :=
  firstByDescVersion (fun r => r.file_hash = h) st.rows

/-- Errors surfaced by the version-store operations. -/
inductive DmError where
  | validation (issue : FileIssue)
  | duplicateContent
  | versionMismatch
deriving DecidableEq, Repr

/-- `current.is_current = False; current.save(update_fields=['is_current'])`:
clear the flag on the row with primary key `pk`. -/
def unsetCurrent (rows : List VRow) (pk : Nat) : List VRow :=
  rows.map (fun r => if r.pk = pk then { r with is_current := false } else r)

/-- `version.is_current = True; version.save(update_fields=['is_current'])`:
set the flag on the row with primary key `pk`. -/
def setCurrent (rows : List VRow) (pk : Nat) : List VRow :=
  rows.map (fun r => if r.pk = pk then { r with is_current := true } else r)

/-- `Document.set_current_version` (models.py lines 715-729): reject a version
of another document (modelled: a primary key not among this document's rows),
then inside one transaction unset the current holder found by
`get_current_version` and set the flag on the requested row. -/
def setCurrentVersion (st : DocState) (vpk : Nat) : Except DmError DocState :=
  if st.rows.any (fun r => r.pk = vpk) then
    let rows1 := match getCurrentVersion st with
      | some cur => unsetCurrent st.rows cur.pk
      | none => st.rows
    .ok ⟨setCurrent rows1 vpk⟩
  else .error .versionMismatch

/-- Version-number assignment in `DocumentVersion.save` (models.py lines
293-307): under the document-row lock, `max(version)` over the non-deleted
versions of the document (`or 0`) plus one.  A row being created has no
primary key yet, so the `exclude(pk=self.pk)` clause excludes nothing. -/
def nextVersionNumber (st : DocState) : Nat :=
  (((st.rows.filter (fun r => !r.deleted)).map (fun r => r.version)).foldr max 0) + 1

/-- The row inserted by `DocumentVersion.save` for a fresh version: a fresh
primary key, the next version number, the computed metadata, and
`is_current=False` (`save_new_version` constructs the instance that way and
promotes it separately). -/
def freshRow (st : DocState) (f : UploadedFile) : VRow := {
  pk := st.rows.length
  version := nextVersionNumber st
  file_hash := f.hash
  is_current := false
  deleted := false
  file_size_bytes := f.size
  file_original_name := f.name }

/-- `Document.save_new_version` (models.py lines 731-780), one atomic
transaction: validate the file against the type rules, look up a version of
the same document with an identical digest (strict: duplicate-content error;
non-strict: return the found version, promoting it when requested), else
insert a row with the next version number, `is_current=False`, and the
computed metadata, then promote it when requested.  The returned row carries
the `is_current` flag the Python object holds after the call. -/
def saveNewVersion (dt : DocumentType) (st : DocState) (f : UploadedFile)
    (set_current : Bool) (strict : Bool) : Except DmError (VRow × DocState) :=
  match cleanIssues dt f with
  | issue :: _ => .error (.validation issue)
  | [] =>
    match findByHash st f.hash with
    | some existing =>
      if strict then .error .duplicateContent
      else if set_current then
        (setCurrentVersion st existing.pk).map
          (fun st' => ({ existing with is_current := true }, st'))
      else .ok (existing, st)
    | none =>
      let row := freshRow st f
      let st1 : DocState := ⟨st.rows ++ [row]⟩
      if set_current then
        (setCurrentVersion st1 row.pk).map
          (fun st' => ({ row with is_current := true }, st'))
      else .ok (row, st1)

/-- One observable call on a document's version store. -/
inductive DocOp where
  | saveNew (f : UploadedFile) (set_current : Bool) (strict : Bool)
  | setCur (vpk : Nat)
deriving Repr

/-- Apply one call; a raising call is a rolled-back transaction, leaving the
persisted state unchanged. -/
def applyOp (dt : DocumentType) (st : DocState) (op : DocOp) : DocState :=
  match op with
  | .saveNew f sc strict =>
    match saveNewVersion dt st f sc strict with
    | .ok (_, st') => st'
    | .error _ => st
  | .setCur vpk =>
    match setCurrentVersion st vpk with
    | .ok st' => st'
    | .error _ => st

/-- Run a sequence of calls against one document, serialized as the
document-row lock and the enclosing transactions serialize them. -/
def runOps (dt : DocumentType) (st : DocState) (ops : List DocOp) : DocState :=
  ops.foldl (applyOp dt) st

/-- A fresh document: no versions. -/
def initState : DocState := ⟨[]⟩

/-- A `Document` row (models.py lines 503-705).  The polymorphic owner
reference is its `owner_uuid`; `groups` are the UUIDs of the related
`DocumentGroup` rows; `deleted` models a set `date_deleted`. -/
structure DocRow where
  pk : Nat
  owner_uuid : Nat
  type_code : String
  title : String
  groups : List Nat
  deleted : Bool
deriving DecidableEq, Repr

/-- A persisted document together with its version store. -/
structure DocEntry where
  row : DocRow
  store : DocState
deriving DecidableEq, Repr

/-- The document table, in creation order. -/
structure GState where
  docs : List DocEntry
  next_pk : Nat
deriving DecidableEq, Repr

/-- Errors surfaced by `Document.create_with_file`.  `maxCountExceeded`
carries the current count and the limit (spec section 4.2). -/
inductive CreateErr where
  | invalidDocumentType
  | integrityTitleUnique
  | versionError (e : DmError)
  | maxCountExceeded (current : Nat) (limit : Nat)
deriving DecidableEq, Repr

/-- `DocumentType.get_by_code` (from the catalog base model): resolve a type
by its `code`. -/
def getByCode (catalog : List DocumentType) (code : String) : Option DocumentType :=
  catalog.find? (fun dt => dt.code = code)

/-- The partial unique constraint `unique_owner_document_title` (models.py
lines 699-705): a second non-deleted document with the same owner and title
is an integrity violation at insert time. -/
def titleConflict (st : GState) (owner : Nat) (title : String) : Bool :=
  st.docs.any (fun d => d.row.owner_uuid = owner && d.row.title = title && !d.row.deleted)

/-- `Document.create_with_file` (models.py lines 782-812): resolve the type by
code, insert the document row, then create the first version with
`set_current=True`.  The body opens no transaction of its own:
`document.save()` commits before `save_new_version` runs its own atomic
block, so when version creation fails the document row stays persisted with
an empty version store. -/
def createWithFile (catalog : List DocumentType) (st : GState) (owner : Nat)
    (f : UploadedFile) (code : String) (title : String) :
    Except CreateErr DocRow × GState :=
  match getByCode catalog code with
  | none => (.error .invalidDocumentType, st)
  | some dt =>
    if titleConflict st owner title then (.error .integrityTitleUnique, st)
    else
      let row : DocRow := { pk := st.next_pk, owner_uuid := owner,
                            type_code := dt.code, title := title,
                            groups := [], deleted := false }
      match saveNewVersion dt ⟨[]⟩ f true true with
      | .error e =>
        (.error (.versionError e), ⟨st.docs ++ [⟨row, ⟨[]⟩⟩], st.next_pk + 1⟩)
      | .ok (_, store') =>
        (.ok row, ⟨st.docs ++ [⟨row, store'⟩], st.next_pk + 1⟩)

/-- Count of existing non-deleted documents of one type for one owner, the
quantity the per-owner limit is checked against. -/
def countOwnerTypeDocs (st : GState) (owner : Nat) (code : String) : Nat :=
  st.docs.countP
    (fun d => d.row.owner_uuid = owner && d.row.type_code = code && !d.row.deleted)

/-- Modelled from the spec: the `max_count_per_owner` enforcement of
`create_with_file` (spec sections 4.2 and 4.4, tested by
test_app/tests/test_v0_2_7.py) is absent from the v0.1.5 sources under
`src/` — `DocumentType` there has no such field and `create_with_file` has no
count check.  Per the spec: resolve the type, count the owner's existing
non-deleted documents of this type inside the same transaction as the
insert, and raise `max_count_exceeded` with the current count and the limit
when at or above a positive limit, before any write; the whole operation is
one transaction that rolls back entirely on any downstream failure. -/
def createWithFileChecked (catalog : List DocumentType) (maxCountPerOwner : Nat)
    (st : GState) (owner : Nat) (f : UploadedFile) (code : String)
    (title : String) : Except CreateErr DocRow × GState :=
  match getByCode catalog code with
  | none => (.error .invalidDocumentType, st)
  | some dt =>
    let cnt := countOwnerTypeDocs st owner dt.code
    if 0 < maxCountPerOwner ∧ maxCountPerOwner ≤ cnt then
      (.error (.maxCountExceeded cnt maxCountPerOwner), st)
    else if titleConflict st owner title then (.error .integrityTitleUnique, st)
    else
      let row : DocRow := { pk := st.next_pk, owner_uuid := owner,
                            type_code := dt.code, title := title,
                            groups := [], deleted := false }
      match saveNewVersion dt ⟨[]⟩ f true true with
      | .error e => (.error (.versionError e), st)
      | .ok (_, store') =>
        (.ok row, ⟨st.docs ++ [⟨row, store'⟩], st.next_pk + 1⟩)

/-- One element of the list/tuple form accepted by
`DocumentQuerySet.in_groups`: a `DocumentGroup` instance, a `uuid.UUID`, a
string, or a value of any other type. -/
inductive GroupItem where
  | group (g_uuid : Nat)
  | uuidObj (u : Nat)
  | uuidStr (s : String)
  | invalid
deriving DecidableEq, Repr

/-- Parsing a string as a UUID (`uuid.UUID(group)`): the canonical string
form of the model UUID `n` is its decimal print, so parsing is `toNat?`. -/
def parseUuid (s : String) : Option Nat := s.toNat?

/-- The polymorphic `groups` argument of `DocumentQuerySet.in_groups`:
a `DocumentGroup` queryset or related manager (carrying its `group_uuid`
values), a single instance, a list/tuple of items, or any other type. -/
inductive GroupsArg where
  | queryset (uuids : List Nat)
  | single (g_uuid : Nat)
  | listed (items : List GroupItem)
  | otherType
deriving DecidableEq, Repr

/-- Errors of `in_groups` (`ValueError` in the source). -/
inductive GroupFilterErr where
  | invalidParamType
  | invalidItem (idx : Nat)
deriving DecidableEq, Repr

/-- Element-wise validation loop of `in_groups` (models.py lines 465-488):
normalize each entry to a UUID, rejecting the first invalid one with its
index. -/
def validateUuids (idx : Nat) : List GroupItem → Except GroupFilterErr (List Nat)
  | [] => .ok []
  | item :: rest =>
    match item with
    | .group g => (validateUuids (idx + 1) rest).map (fun us => g :: us)
    | .uuidObj u => (validateUuids (idx + 1) rest).map (fun us => u :: us)
    | .uuidStr s =>
      match parseUuid s with
      | some u => (validateUuids (idx + 1) rest).map (fun us => u :: us)
      | none => .error (.invalidItem idx)
    | .invalid => .error (.invalidItem idx)

/-- Membership filter `groups__group_uuid__in=uuids` over a document list. -/
def filterByGroups (self : List DocRow) (uuids : List Nat) : List DocRow :=
  self.filter (fun d => d.groups.any (fun g => uuids.contains g))

/-- `DocumentQuerySet.in_groups` (models.py lines 392-491): querysets and
managers contribute their `group_uuid` values (empty ones yield `none()`);
a single instance filters by its UUID; anything that is not a list or tuple
raises; an empty list yields `none()`; otherwise each element is validated
and the documents related to any of the collected UUIDs are returned. -/
def inGroups (self : List DocRow) (groups : GroupsArg) :
    Except GroupFilterErr (List DocRow) :=
  match groups with
  | .queryset uuids =>
    if uuids.isEmpty then .ok []
    else .ok (filterByGroups self uuids)
  | .single g => .ok (self.filter (fun d => d.groups.contains g))
  | .otherType => .error .invalidParamType
  | .listed items =>
    if items.isEmpty then .ok []
    else (validateUuids 0 items).map (filterByGroups self)

/-- `DocumentManager.get_queryset` (models.py lines 499-501): every query
through the default manager starts from
`filter(date_deleted__isnull=True)`. -/
def documentsQS (docs : List DocRow) : List DocRow :=
  docs.filter (fun d => !d.deleted)

/-- `BaseDocumentOwnerModel.get_documents` (models.py lines 1118-1134): an
owner without a UUID gets `Document.objects.none()`; otherwise the default
manager filtered by `owner_uuid`. -/
def getDocuments (owner_uuid : Option Nat) (docs : List DocRow) : List DocRow :=
  match owner_uuid with
  | none => []
  | some u => (documentsQS docs).filter (fun d => d.owner_uuid = u)

/-- The name of the protected identifier field, as a constant. -/
def uuidFieldName : String := "document_owner_uuid"

/-- An owner row (or an in-memory owner instance) as a field assignment list:
`django_crud_audit` owner models are external, so fields are generic. -/
abbrev FieldMap := List (String × Nat)

/-- Value of a field. -/
def lookupField (m : FieldMap) (k : String) : Option Nat :=
  (m.find? (fun p => p.1 = k)).map (fun p => p.2)

/-- Assign one field: overwrite the first binding in place, else append. -/
def setField : FieldMap → String → Nat → FieldMap
  | [], k, v => [(k, v)]
  | (a :: m), k, v => if a.1 = k then (k, v) :: m else a :: setField m k v

/-- Apply an update's keyword arguments to one row, left to right. -/
def applyKwargs (row : FieldMap) (kw : FieldMap) : FieldMap :=
  kw.foldl (fun r p => setField r p.1 p.2) row

/-- `DocumentOwnerQuerySet.update` (models.py lines 961-974): delete
`document_owner_uuid` from the kwargs (logging a warning), then apply the
remaining assignments to every row of the queryset. -/
def ownerQuerySetUpdate (rows : List FieldMap) (kwargs : FieldMap) : List FieldMap :=
  let kwargs' := kwargs.filter (fun p => p.1 ≠ uuidFieldName)
  rows.map (fun r => applyKwargs r kwargs')

/-- Write the listed fields of an in-memory object into a database row
(the row-level effect of Django `bulk_update` for one object). -/
def writeFields (obj : FieldMap) (fields : List String) (row : FieldMap) : FieldMap :=
  fields.foldl
    (fun acc k =>
      match lookupField obj k with
      | some v => setField acc k v
      | none => acc) row

/-- `DocumentOwnerManager.bulk_update` (models.py lines 936-942): drop
`document_owner_uuid` from the field list, then perform the bulk update —
each database row whose primary key matches an object gets that object's
values for the listed fields. -/
def ownerBulkUpdate (rows : List (Nat × FieldMap)) (objs : List (Nat × FieldMap))
    (fields : List String) : List (Nat × FieldMap) :=
  let fields' := fields.filter (fun k => k ≠ uuidFieldName)
  rows.map (fun pr =>
    match objs.find? (fun o => o.1 = pr.1) with
    | some o => (pr.1, writeFields o.2 fields' pr.2)
    | none => pr)

/-- Version rows with the `is_current` flag blanked: two stores agreeing
under `stripFlags` hold the same rows up to current-flag changes. -/
def stripFlags (rows : List VRow) : List VRow :=
  rows.map (fun r => { r with is_current := false })

/-- States of a document's version store reachable by `save_new_version` and
`set_current_version` calls: primary keys are the insertion indices, version
numbers are the gapless sequence 1..n in creation order, nothing is
soft-deleted (neither operation deletes), and at most one row is flagged
current. -/
def Inv (st : DocState) : Prop :=
  st.rows.map (fun r => r.pk) = List.range st.rows.length ∧
  st.rows.map (fun r => r.version) = List.range' 1 st.rows.length ∧
  (∀ r ∈ st.rows, r.deleted = false) ∧
  st.rows.countP (fun r => r.is_current) ≤ 1

/-! Helper lemmas about the version-store operations. -/

theorem map_setCurrent {α : Type} (g : VRow → α)
    (hg : ∀ r, g { r with is_current := true } = g r) (rows : List VRow)
    (pk : Nat) : (setCurrent rows pk).map g = rows.map g := by
  rw [setCurrent, List.map_map]
  apply List.map_congr_left
  intro a _
  by_cases h : a.pk = pk
  · simp only [Function.comp_apply, if_pos h]
    exact hg a
  · simp only [Function.comp_apply, if_neg h]

theorem map_unsetCurrent {α : Type} (g : VRow → α)
    (hg : ∀ r, g { r with is_current := false } = g r) (rows : List VRow)
    (pk : Nat) : (unsetCurrent rows pk).map g = rows.map g := by
  rw [unsetCurrent, List.map_map]
  apply List.map_congr_left
  intro a _
  by_cases h : a.pk = pk
  · simp only [Function.comp_apply, if_pos h]
    exact hg a
  · simp only [Function.comp_apply, if_neg h]

theorem stripFlags_setCurrent (rows : List VRow) (pk : Nat) :
    stripFlags (setCurrent rows pk) = stripFlags rows := by
  simp only [stripFlags]
  exact @map_setCurrent VRow (fun r => { r with is_current := false }) (fun r => rfl) rows pk

theorem stripFlags_unsetCurrent (rows : List VRow) (pk : Nat) :
    stripFlags (unsetCurrent rows pk) = stripFlags rows := by
  simp only [stripFlags]
  exact @map_unsetCurrent VRow (fun r => { r with is_current := false }) (fun r => rfl) rows pk

theorem map_pk_stripFlags (rows : List VRow) :
    (stripFlags rows).map (fun r => r.pk) = rows.map (fun r => r.pk) := by
  rw [stripFlags, List.map_map]; rfl

theorem map_version_stripFlags (rows : List VRow) :
    (stripFlags rows).map (fun r => r.version) = rows.map (fun r => r.version) := by
  rw [stripFlags, List.map_map]; rfl

theorem length_stripFlags (rows : List VRow) :
    (stripFlags rows).length = rows.length := by
  simp [stripFlags]

theorem deleted_false_of_stripFlags {rows rows' : List VRow}
    (hs : stripFlags rows' = stripFlags rows)
    (hd : ∀ r ∈ rows, r.deleted = false) :
    ∀ r' ∈ rows', r'.deleted = false := by
  intro r' hr'
  have hmem : ({ r' with is_current := false } : VRow) ∈ stripFlags rows := by
    rw [← hs]
    exact List.mem_map_of_mem _ hr'
  rcases List.mem_map.mp hmem with ⟨r, hr, he⟩
  have hdel : r.deleted = r'.deleted := by
    have h2 := congrArg (fun v => VRow.deleted v) he
    simpa using h2
  rw [← hdel]
  exact hd r hr

theorem pickMaxVersion_cases {acc : Option VRow} {x r : VRow}
    (h : pickMaxVersion acc x = some r) : r = x ∨ acc = some r := by
  cases acc with
  | none => exact Or.inl (Option.some_injective _ h).symm
  | some m =>
    simp only [pickMaxVersion] at h
    split at h
    · exact Or.inl (Option.some_injective _ h).symm
    · exact Or.inr h

theorem fbStep_aux_mem (p : VRow → Bool) (l : List VRow) :
    ∀ (acc : Option VRow) (r : VRow), l.foldl (fbStep p) acc = some r →
      acc = some r ∨ (r ∈ l ∧ p r = true) := by
  induction l with
  | nil => intro acc r h; exact Or.inl h
  | cons a l ih =>
    intro acc r h
    simp only [List.foldl_cons] at h
    rcases ih _ _ h with h1 | h2
    · by_cases hpa : p a = true
      · simp only [fbStep, hpa, if_true] at h1
        rcases pickMaxVersion_cases h1 with rfl | hacc
        · exact Or.inr ⟨List.mem_cons_self _ _, hpa⟩
        · exact Or.inl hacc
      · simp only [fbStep] at h1
        rw [if_neg hpa] at h1
        exact Or.inl h1
    · exact Or.inr ⟨List.mem_cons_of_mem _ h2.1, h2.2⟩

theorem fbStep_aux_isSome (p : VRow → Bool) (l : List VRow) :
    ∀ (acc : Option VRow), ((∃ x ∈ l, p x = true) ∨ acc.isSome) →
      (l.foldl (fbStep p) acc).isSome := by
  induction l with
  | nil =>
    intro acc h
    rcases h with ⟨x, hx, _⟩ | h
    · exact absurd hx (List.not_mem_nil x)
    · exact h
  | cons a l ih =>
    intro acc h
    simp only [List.foldl_cons]
    by_cases hpa : p a = true
    · apply ih
      right
      simp only [fbStep, hpa, if_true]
      cases acc with
      | none => simp [pickMaxVersion]
      | some m =>
        simp only [pickMaxVersion]
        split <;> simp
    · apply ih
      have hstep : fbStep p acc a = acc := by
        simp only [fbStep]
        rw [if_neg hpa]
      rw [hstep]
      rcases h with ⟨x, hx, hpx⟩ | h
      · rcases List.mem_cons.mp hx with rfl | hxl
        · exact absurd hpx hpa
        · exact Or.inl ⟨x, hxl, hpx⟩
      · exact Or.inr h

theorem firstByDescVersion_mem {p : VRow → Bool} {rows : List VRow} {r : VRow}
    (h : firstByDescVersion p rows = some r) : r ∈ rows ∧ p r = true := by
  rcases fbStep_aux_mem p rows none r h with h1 | h2
  · exact absurd h1 (by simp)
  · exact h2

theorem firstByDescVersion_isSome {p : VRow → Bool} {rows : List VRow}
    {x : VRow} (hx : x ∈ rows) (hpx : p x = true) :
    ∃ r, firstByDescVersion p rows = some r :=
  Option.isSome_iff_exists.mp (fbStep_aux_isSome p rows none (Or.inl ⟨x, hx, hpx⟩))

theorem getCurrentVersion_mem {st : DocState} {r : VRow}
    (h : getCurrentVersion st = some r) : r ∈ st.rows ∧ r.is_current = true :=
  firstByDescVersion_mem h

theorem getCurrentVersion_isSome {st : DocState} {x : VRow} (hx : x ∈ st.rows)
    (hc : x.is_current = true) : ∃ r, getCurrentVersion st = some r :=
  firstByDescVersion_isSome hx hc

theorem findByHash_mem {st : DocState} {hsh : String} {r : VRow}
    (h : findByHash st hsh = some r) : r ∈ st.rows ∧ r.file_hash = hsh := by
  have := firstByDescVersion_mem h
  exact ⟨this.1, by simpa using this.2⟩

theorem two_le_countP_of_ne {α : Type} [DecidableEq α] {p : α → Bool} {l : List α} {x y : α}
    (hx : x ∈ l) (hpx : p x = true) (hy : y ∈ l) (hpy : p y = true)
    (hne : x ≠ y) : 2 ≤ l.countP p := by
  rw [List.countP_eq_length_filter]
  have hxf : x ∈ l.filter p := List.mem_filter.mpr ⟨hx, hpx⟩
  have hyf : y ∈ l.filter p := List.mem_filter.mpr ⟨hy, hpy⟩
  have hye : y ∈ (l.filter p).erase x := (List.mem_erase_of_ne (Ne.symm hne)).mpr hyf
  have hlen : ((l.filter p).erase x).length = (l.filter p).length - 1 :=
    List.length_erase_of_mem hxf
  have hpos : 0 < ((l.filter p).erase x).length := List.length_pos_of_mem hye
  omega

theorem eq_of_countP_le_one {α : Type} [DecidableEq α] {p : α → Bool} {l : List α} {x y : α}
    (hle : l.countP p ≤ 1) (hx : x ∈ l) (hpx : p x = true) (hy : y ∈ l)
    (hpy : p y = true) : x = y := by
  by_contra hne
  have := two_le_countP_of_ne hx hpx hy hpy hne
  omega

theorem countP_le_one_of_key {α β : Type} [DecidableEq β] {p : α → Bool}
    (key : α → β) (c : β) {l : List α}
    (hkey : ∀ x ∈ l, p x = true → key x = c) (hnd : (l.map key).Nodup) :
    l.countP p ≤ 1 := by
  induction l with
  | nil => simp
  | cons a l ih =>
    simp only [List.map_cons, List.nodup_cons] at hnd
    by_cases hpa : p a = true
    · rw [List.countP_cons_of_pos _ _ hpa]
      have hzero : l.countP p = 0 := by
        rw [List.countP_eq_zero]
        intro b hb hpb
        have hba : key b = c := hkey b (List.mem_cons_of_mem _ hb) hpb
        have haa : key a = c := hkey a (List.mem_cons_self _ _) hpa
        exact hnd.1 (by rw [haa, ← hba]; exact List.mem_map_of_mem key hb)
      omega
    · rw [List.countP_cons_of_neg _ _ (by simpa using hpa)]
      exact ih (fun x hx hpx => hkey x (List.mem_cons_of_mem _ hx) hpx) hnd.2

theorem setCurrentVersion_rows {st st' : DocState} {vpk : Nat}
    (h : setCurrentVersion st vpk = .ok st') :
    (∃ cur, getCurrentVersion st = some cur ∧
        st'.rows = setCurrent (unsetCurrent st.rows cur.pk) vpk) ∨
      (getCurrentVersion st = none ∧ st'.rows = setCurrent st.rows vpk) := by
  unfold setCurrentVersion at h
  by_cases hmem : st.rows.any (fun r => r.pk = vpk)
  · rw [if_pos hmem] at h
    cases hg : getCurrentVersion st with
    | some cur =>
      rw [hg] at h
      cases h
      exact Or.inl ⟨cur, rfl, rfl⟩
    | none =>
      rw [hg] at h
      cases h
      exact Or.inr ⟨rfl, rfl⟩
  · rw [if_neg hmem] at h
    cases h

theorem setCurrentVersion_stripFlags {st st' : DocState} {vpk : Nat}
    (h : setCurrentVersion st vpk = .ok st') :
    stripFlags st'.rows = stripFlags st.rows := by
  rcases setCurrentVersion_rows h with ⟨cur, _, hrows⟩ | ⟨_, hrows⟩ <;>
    rw [hrows] <;>
    simp [stripFlags_setCurrent, stripFlags_unsetCurrent]

theorem setCurrentVersion_map_pk {st st' : DocState} {vpk : Nat}
    (h : setCurrentVersion st vpk = .ok st') :
    st'.rows.map (fun r => r.pk) = st.rows.map (fun r => r.pk) := by
  rw [← map_pk_stripFlags st'.rows, ← map_pk_stripFlags st.rows,
    setCurrentVersion_stripFlags h]

theorem setCurrentVersion_map_version {st st' : DocState} {vpk : Nat}
    (h : setCurrentVersion st vpk = .ok st') :
    st'.rows.map (fun r => r.version) = st.rows.map (fun r => r.version) := by
  rw [← map_version_stripFlags st'.rows, ← map_version_stripFlags st.rows,
    setCurrentVersion_stripFlags h]

theorem setCurrentVersion_length {st st' : DocState} {vpk : Nat}
    (h : setCurrentVersion st vpk = .ok st') :
    st'.rows.length = st.rows.length := by
  have := congrArg List.length (setCurrentVersion_map_pk h)
  simpa using this

theorem setCurrentVersion_current_pk {st st' : DocState} {vpk : Nat}
    (hcnt : st.rows.countP (fun r => r.is_current) ≤ 1)
    (h : setCurrentVersion st vpk = .ok st') :
    ∀ r' ∈ st'.rows, r'.is_current = true → r'.pk = vpk := by
  rcases setCurrentVersion_rows h with ⟨cur, hg, hrows⟩ | ⟨hg, hrows⟩
  · intro r' hr' hc'
    rw [hrows] at hr'
    rcases List.mem_map.mp hr' with ⟨r1, hr1, he1⟩
    by_cases h1 : r1.pk = vpk
    · rw [if_pos h1] at he1
      rw [← he1]
      exact h1
    · rw [if_neg h1] at he1
      subst he1
      exfalso
      rcases List.mem_map.mp hr1 with ⟨r0, hr0, he0⟩
      by_cases h0 : r0.pk = cur.pk
      · rw [if_pos h0] at he0
        rw [← he0] at hc'
        simp at hc'
      · rw [if_neg h0] at he0
        subst he0
        have hcm := getCurrentVersion_mem hg
        have heq : r0 = cur := eq_of_countP_le_one hcnt hr0 hc' hcm.1 hcm.2
        exact h0 (by rw [heq])
  · intro r' hr' hc'
    rw [hrows] at hr'
    rcases List.mem_map.mp hr' with ⟨r1, hr1, he1⟩
    by_cases h1 : r1.pk = vpk
    · rw [if_pos h1] at he1
      rw [← he1]
      exact h1
    · rw [if_neg h1] at he1
      subst he1
      exfalso
      rcases getCurrentVersion_isSome hr1 hc' with ⟨c, hc⟩
      rw [hg] at hc
      cases hc

theorem setCurrentVersion_countP {st st' : DocState} {vpk : Nat}
    (hcnt : st.rows.countP (fun r => r.is_current) ≤ 1)
    (hnd : (st.rows.map (fun r => r.pk)).Nodup)
    (h : setCurrentVersion st vpk = .ok st') :
    st'.rows.countP (fun r => r.is_current) ≤ 1 := by
  have hkey := setCurrentVersion_current_pk hcnt h
  have hnd' : (st'.rows.map (fun r => r.pk)).Nodup := by
    rw [setCurrentVersion_map_pk h]
    exact hnd
  exact countP_le_one_of_key (fun r => r.pk) vpk hkey hnd'

theorem inv_setCurrentVersion {st st' : DocState} {vpk : Nat} (hinv : Inv st)
    (h : setCurrentVersion st vpk = .ok st') : Inv st' := by
  obtain ⟨hpk, hver, hdel, hcnt⟩ := hinv
  have hlen : st'.rows.length = st.rows.length := setCurrentVersion_length h
  refine ⟨?_, ?_, ?_, ?_⟩
  · rw [setCurrentVersion_map_pk h, hlen]
    exact hpk
  · rw [setCurrentVersion_map_version h, hlen]
    exact hver
  · exact deleted_false_of_stripFlags (setCurrentVersion_stripFlags h) hdel
  · refine setCurrentVersion_countP hcnt ?_ h
    rw [hpk]
    exact List.nodup_range _

theorem foldr_max_range' (n s : Nat) :
    (List.range' (s + 1) n).foldr max 0 = if n = 0 then 0 else s + n := by
  induction n generalizing s with
  | zero => simp
  | succ m ih =>
    rw [List.range'_succ]
    simp only [List.foldr_cons]
    rw [ih (s + 1)]
    by_cases hm : m = 0
    · subst hm
      simp
    · rw [if_neg hm, if_neg (Nat.succ_ne_zero m)]
      omega

theorem nextVersionNumber_inv {st : DocState}
    (hver : st.rows.map (fun r => r.version) = List.range' 1 st.rows.length)
    (hdel : ∀ r ∈ st.rows, r.deleted = false) :
    nextVersionNumber st = st.rows.length + 1 := by
  unfold nextVersionNumber
  have hfil : st.rows.filter (fun r => !r.deleted) = st.rows := by
    apply List.filter_eq_self.mpr
    intro a ha
    rw [hdel a ha]
    rfl
  rw [hfil, hver]
  have hmax := foldr_max_range' st.rows.length 0
  simp only [Nat.zero_add] at hmax
  rw [hmax]
  split <;> omega

theorem inv_append_fresh {st : DocState} {f : UploadedFile} (hinv : Inv st) :
    Inv ⟨st.rows ++ [freshRow st f]⟩ := by
  obtain ⟨hpk, hver, hdel, hcnt⟩ := hinv
  refine ⟨?_, ?_, ?_, ?_⟩
  · simp only [List.map_append, hpk, List.length_append, List.map_cons,
      List.map_nil, List.length_cons, List.length_nil]
    have hrs := List.range_succ st.rows.length
    rw [Nat.succ_eq_add_one] at hrs
    rw [show st.rows.length + (0 + 1) = st.rows.length + 1 by omega, hrs]
    rfl
  · simp only [List.map_append, hver, List.length_append, List.map_cons,
      List.map_nil, List.length_cons, List.length_nil]
    have hnext : (freshRow st f).version = st.rows.length + 1 :=
      nextVersionNumber_inv hver hdel
    rw [show st.rows.length + (0 + 1) = st.rows.length + 1 by omega]
    rw [List.range'_concat]
    rw [hnext]
    simp
    omega
  · intro r hr
    rcases List.mem_append.mp hr with h | h
    · exact hdel r h
    · rw [List.mem_singleton.mp h]
      rfl
  · rw [List.countP_append]
    have hz : ([freshRow st f] : List VRow).countP (fun r => r.is_current) = 0 := by
      simp [freshRow]
    omega

theorem inv_saveNewVersion {dt : DocumentType} {st : DocState}
    {f : UploadedFile} {sc strict : Bool} {v : VRow} {st' : DocState}
    (hinv : Inv st) (h : saveNewVersion dt st f sc strict = .ok (v, st')) :
    Inv st' := by
  unfold saveNewVersion at h
  cases hclean : cleanIssues dt f with
  | cons i l =>
    rw [hclean] at h
    cases h
  | nil =>
    rw [hclean] at h
    cases hdup : findByHash st f.hash with
    | some ex =>
      rw [hdup] at h
      cases strict with
      | true => cases h
      | false =>
        simp only [Bool.false_eq_true, if_false] at h
        cases sc with
        | false =>
          simp only [Bool.false_eq_true, if_false] at h
          cases h
          exact hinv
        | true =>
          simp only [if_true] at h
          cases hsc : setCurrentVersion st ex.pk with
          | error e =>
            rw [hsc] at h
            cases h
          | ok st2 =>
            rw [hsc] at h
            cases h
            exact inv_setCurrentVersion hinv hsc
    | none =>
      rw [hdup] at h
      have hinv1 : Inv ⟨st.rows ++ [freshRow st f]⟩ := inv_append_fresh hinv
      cases sc with
      | false =>
        simp only [Bool.false_eq_true, if_false] at h
        cases h
        exact hinv1
      | true =>
        simp only [if_true] at h
        cases hsc : setCurrentVersion ⟨st.rows ++ [freshRow st f]⟩ (freshRow st f).pk with
        | error e =>
          rw [hsc] at h
          cases h
        | ok st2 =>
          rw [hsc] at h
          cases h
          exact inv_setCurrentVersion hinv1 hsc

theorem inv_applyOp (dt : DocumentType) (st : DocState) (op : DocOp)
    (hinv : Inv st) : Inv (applyOp dt st op) := by
  cases op with
  | setCur vpk =>
    simp only [applyOp]
    cases h : setCurrentVersion st vpk with
    | ok st' => exact inv_setCurrentVersion hinv h
    | error e => exact hinv
  | saveNew f sc strict =>
    simp only [applyOp]
    cases h : saveNewVersion dt st f sc strict with
    | error e => exact hinv
    | ok p =>
      obtain ⟨v, st'⟩ := p
      exact inv_saveNewVersion hinv h

theorem inv_initState : Inv initState := by
  refine ⟨rfl, rfl, ?_, ?_⟩ <;> simp [initState]

theorem inv_runOps (dt : DocumentType) (ops : List DocOp) :
    ∀ st, Inv st → Inv (runOps dt st ops) := by
  induction ops with
  | nil =>
    intro st h
    exact h
  | cons op ops ih =>
    intro st h
    exact ih _ (inv_applyOp dt st op h)

theorem setCurrent_current {rows : List VRow} {pk : Nat} :
    ∀ r' ∈ setCurrent rows pk, r'.pk = pk → r'.is_current = true := by
  intro r' hr' hpk
  rcases List.mem_map.mp hr' with ⟨r1, hr1, he⟩
  by_cases h1 : r1.pk = pk
  · rw [if_pos h1] at he
    rw [← he]
  · rw [if_neg h1] at he
    subst he
    exact absurd hpk h1

/-- C1: for every document, after any sequence of `save_new_version` and
`set_current_version` calls starting from a fresh document — concurrent
callers are serialized by the enclosing transactions and the document-row
lock, so an arbitrary interleaving is an arbitrary sequence — at most one
non-deleted version row has `is_current = true`.  Intermediate states inside
a transaction are not observable (the paired flag writes of
`set_current_version` sit in one atomic block). -/
theorem C1_at_most_one_current (dt : DocumentType) (ops : List DocOp) :
    ((runOps dt initState ops).rows.countP
      (fun r => r.is_current && !r.deleted)) ≤ 1 := by
  obtain ⟨_, _, _, hcnt⟩ := inv_runOps dt ops initState inv_initState
  refine le_trans (List.countP_mono_left ?_) hcnt
  intro r _ hr
  exact (Bool.and_eq_true _ _ |>.mp hr).1

/-- C2: for every document, after any sequence of `save_new_version` and
`set_current_version` calls starting from a fresh document, the version
numbers of its non-deleted versions in creation order are exactly
1, 2, ..., n — strictly increasing and gapless from 1.  The number assigned
to each created version is `nextVersionNumber`: max(version) over the
non-deleted versions (the row being written, having no primary key yet, is
excluded) plus one, i.e. 1 when no versions exist. -/
theorem C2_gapless_versions (dt : DocumentType) (ops : List DocOp) :
    ((runOps dt initState ops).rows.filter (fun r => !r.deleted)).map
        (fun r => r.version)
      = List.range' 1
          ((runOps dt initState ops).rows.filter (fun r => !r.deleted)).length := by
  obtain ⟨_, hver, hdel, _⟩ := inv_runOps dt ops initState inv_initState
  have hfil : (runOps dt initState ops).rows.filter (fun r => !r.deleted)
      = (runOps dt initState ops).rows := by
    apply List.filter_eq_self.mpr
    intro a ha
    rw [hdel a ha]
    rfl
  rw [hfil, hver]

/-- C3: for a file that passes the type's validation checks (the spec's
step 2, which `save_new_version` runs before the duplicate lookup) and whose
content digest matches an existing version of the same document:
with `strict=True` the call raises a duplicate-content error and creates no
version row (the transaction leaves the store untouched); with
`strict=False` it creates no new row — the store keeps the same rows up to
current-flag changes — returns that pre-existing version unchanged, and
promotes it to current exactly when `set_current` is true (with
`set_current=False` the store is untouched and the row is returned as
stored). -/
theorem C3_duplicate_content (dt : DocumentType) (st : DocState)
    (f : UploadedFile) (ex : VRow) (hclean : cleanIssues dt f = [])
    (hdup : findByHash st f.hash = some ex) :
    (∀ sc : Bool, saveNewVersion dt st f sc true = .error .duplicateContent ∧
        applyOp dt st (DocOp.saveNew f sc true) = st) ∧
    saveNewVersion dt st f false false = .ok (ex, st) ∧
    (∃ st', saveNewVersion dt st f true false
          = .ok ({ ex with is_current := true }, st') ∧
        stripFlags st'.rows = stripFlags st.rows ∧
        ∀ r' ∈ st'.rows, r'.pk = ex.pk → r'.is_current = true) := by
  have hmem : st.rows.any (fun r => r.pk = ex.pk) = true := by
    rcases findByHash_mem hdup with ⟨hex, _⟩
    exact List.any_eq_true.mpr ⟨ex, hex, by simp⟩
  have hok : ∃ st2, setCurrentVersion st ex.pk = .ok st2 := by
    unfold setCurrentVersion
    rw [if_pos hmem]
    exact ⟨_, rfl⟩
  rcases hok with ⟨st2, hst2⟩
  refine ⟨?_, ?_, ?_⟩
  · intro sc
    constructor
    · simp [saveNewVersion, hclean, hdup]
    · simp [applyOp, saveNewVersion, hclean, hdup]
  · simp [saveNewVersion, hclean, hdup]
  · refine ⟨st2, ?_, setCurrentVersion_stripFlags hst2, ?_⟩
    · simp [saveNewVersion, hclean, hdup, hst2, Except.map]
    · rcases setCurrentVersion_rows hst2 with ⟨cur, _, hrows⟩ | ⟨_, hrows⟩ <;>
        rw [hrows] <;>
        exact setCurrent_current

/-- C3 witness: a store holding one version with digest h1; a valid second
file with the same digest is rejected in strict mode and reused otherwise. -/
theorem C3_witness :
    (∀ sc : Bool, saveNewVersion ⟨"t", "T", [], 10, false, false⟩
          ⟨[⟨0, 1, "h1", true, false, 10, "a.txt"⟩]⟩ ⟨"b.txt", 10, "h1"⟩ sc true
          = .error .duplicateContent ∧
        applyOp ⟨"t", "T", [], 10, false, false⟩
          ⟨[⟨0, 1, "h1", true, false, 10, "a.txt"⟩]⟩
          (DocOp.saveNew ⟨"b.txt", 10, "h1"⟩ sc true)
          = ⟨[⟨0, 1, "h1", true, false, 10, "a.txt"⟩]⟩) ∧
    saveNewVersion ⟨"t", "T", [], 10, false, false⟩
        ⟨[⟨0, 1, "h1", true, false, 10, "a.txt"⟩]⟩ ⟨"b.txt", 10, "h1"⟩ false false
      = .ok (⟨0, 1, "h1", true, false, 10, "a.txt"⟩,
          ⟨[⟨0, 1, "h1", true, false, 10, "a.txt"⟩]⟩) ∧
    (∃ st', saveNewVersion ⟨"t", "T", [], 10, false, false⟩
          ⟨[⟨0, 1, "h1", true, false, 10, "a.txt"⟩]⟩ ⟨"b.txt", 10, "h1"⟩ true false
          = .ok ({ (⟨0, 1, "h1", true, false, 10, "a.txt"⟩ : VRow) with
              is_current := true }, st') ∧
        stripFlags st'.rows
          = stripFlags (⟨[⟨0, 1, "h1", true, false, 10, "a.txt"⟩]⟩ : DocState).rows ∧
        ∀ r' ∈ st'.rows, r'.pk = (⟨0, 1, "h1", true, false, 10, "a.txt"⟩ : VRow).pk →
          r'.is_current = true) :=
  C3_duplicate_content ⟨"t", "T", [], 10, false, false⟩
    ⟨[⟨0, 1, "h1", true, false, 10, "a.txt"⟩]⟩ ⟨"b.txt", 10, "h1"⟩
    ⟨0, 1, "h1", true, false, 10, "a.txt"⟩ (by decide) (by decide)

/-- C6 counterexample: `report.docx` of 2 MB against a type allowing only
`pdf` with a 1 MB cap violates both checks, yet `clean` reports only
`invalid_extension` — the size issue is not reported together with it, so
the two checks are not both evaluated. -/
theorem C6_counterexample :
    (⟨"lim", "Limited", ["pdf"], 1, false, false⟩ : DocumentType).file_extensions
        ≠ [] ∧
    extensionOk ⟨"lim", "Limited", ["pdf"], 1, false, false⟩ "report.docx"
        = false ∧
    sizeExceeds ⟨"lim", "Limited", ["pdf"], 1, false, false⟩ (2 * 1024 * 1024)
        = true ∧
    cleanIssues ⟨"lim", "Limited", ["pdf"], 1, false, false⟩
        ⟨"report.docx", 2 * 1024 * 1024, "h"⟩
      = [FileIssue.invalid_extension] ∧
    FileIssue.file_too_large ∉
      cleanIssues ⟨"lim", "Limited", ["pdf"], 1, false, false⟩
        ⟨"report.docx", 2 * 1024 * 1024, "h"⟩ := by
  decide

/-- C6 amended: the two checks are evaluated in order and validation raises
at the first violation — for a file whose extension is not allowed (the
allowed set being non-empty) and whose size also exceeds the limit, only
`invalid_extension` is reported; the size check runs only when the extension
check passes. -/
theorem C6_first_violation_only (dt : DocumentType) (f : UploadedFile)
    (hne : dt.file_extensions ≠ []) (hext : extensionOk dt f.name = false)
    (hsize : sizeExceeds dt f.size = true) :
    cleanIssues dt f = [FileIssue.invalid_extension] ∧
      FileIssue.file_too_large ∉ cleanIssues dt f := by
  have heq : cleanIssues dt f = [FileIssue.invalid_extension] := by
    unfold cleanIssues
    rw [if_pos ⟨hne, hext⟩]
  refine ⟨heq, ?_⟩
  rw [heq]
  simp

/-- C6 witness: the amended statement at the counterexample's input. -/
theorem C6_first_violation_only_witness :
    cleanIssues ⟨"lim", "Limited", ["pdf"], 1, false, false⟩
        ⟨"report.docx", 2 * 1024 * 1024, "h"⟩
      = [FileIssue.invalid_extension] ∧
    FileIssue.file_too_large ∉
      cleanIssues ⟨"lim", "Limited", ["pdf"], 1, false, false⟩
        ⟨"report.docx", 2 * 1024 * 1024, "h"⟩ :=
  C6_first_violation_only ⟨"lim", "Limited", ["pdf"], 1, false, false⟩
    ⟨"report.docx", 2 * 1024 * 1024, "h"⟩ (by decide) (by decide) (by decide)

theorem sizeExceeds_iff_div (dt : DocumentType) (size : Nat) :
    sizeExceeds dt size = true ↔
      (size : ℚ) / (1024 * 1024) > (dt.max_file_size_mb : ℚ) := by
  simp only [sizeExceeds, decide_eq_true_eq, gt_iff_lt]
  rw [lt_div_iff₀ (by norm_num : (0 : ℚ) < 1024 * 1024)]
  constructor
  · intro h
    have hc := (Nat.cast_lt (α := ℚ)).mpr h
    push_cast at hc ⊢
    linarith
  · intro h
    have hc : ((dt.max_file_size_mb * (1024 * 1024) : Nat) : ℚ) < (size : ℚ) := by
      push_cast
      linarith
    exact_mod_cast hc

/-- C7: for a file that reaches the size check (its extension passes or the
type restricts no extensions), validation reports `file_too_large` exactly
when `size_bytes / (1024*1024)` (exact division) strictly exceeds
`max_file_size_mb`, and a file of exactly `max_file_size_mb` megabytes
passes — the boundary is inclusive. -/
theorem C7_size_boundary (dt : DocumentType) (f : UploadedFile)
    (hext : dt.file_extensions = [] ∨ extensionOk dt f.name = true) :
    (FileIssue.file_too_large ∈ cleanIssues dt f ↔
      (f.size : ℚ) / (1024 * 1024) > (dt.max_file_size_mb : ℚ)) ∧
    (f.size = dt.max_file_size_mb * (1024 * 1024) → cleanIssues dt f = []) := by
  have hcond : ¬(dt.file_extensions ≠ [] ∧ extensionOk dt f.name = false) := by
    rintro ⟨h1, h2⟩
    rcases hext with h | h
    · exact h1 h
    · rw [h] at h2
      cases h2
  have hclean : cleanIssues dt f
      = if sizeExceeds dt f.size then [FileIssue.file_too_large] else [] := by
    unfold cleanIssues
    rw [if_neg hcond]
  constructor
  · rw [hclean, ← sizeExceeds_iff_div]
    by_cases hs : sizeExceeds dt f.size = true
    · simp [hs]
    · have hs' : sizeExceeds dt f.size = false := by simpa using hs
      simp [hs']
  · intro hsz
    have hs' : sizeExceeds dt f.size = false := by
      unfold sizeExceeds
      rw [hsz]
      simp
    rw [hclean, hs']
    simp

/-- C7 witness: a 5 MB pdf against a 5 MB cap passes the size check
(boundary inclusive). -/
theorem C7_size_boundary_witness :
    (FileIssue.file_too_large ∈
        cleanIssues ⟨"sz", "Size", ["pdf"], 5, false, false⟩
          ⟨"report.pdf", 5 * 1024 * 1024, "h"⟩ ↔
      ((5 * 1024 * 1024 : Nat) : ℚ) / (1024 * 1024) > ((5 : Nat) : ℚ)) ∧
    ((5 * 1024 * 1024 : Nat) = 5 * (1024 * 1024) →
      cleanIssues ⟨"sz", "Size", ["pdf"], 5, false, false⟩
        ⟨"report.pdf", 5 * 1024 * 1024, "h"⟩ = []) :=
  C7_size_boundary ⟨"sz", "Size", ["pdf"], 5, false, false⟩
    ⟨"report.pdf", 5 * 1024 * 1024, "h"⟩ (Or.inr (by decide))

/-- C4: the claim says `create_with_file` is one transaction that rolls back
entirely when version creation fails, leaving no document row.  The source
opens no transaction around the two steps: `document.save()` commits before
`save_new_version` runs, so on a failing first version (here: a `.docx`
upload against a pdf-only type) the call errors yet the document row
persists with zero versions — an orphaned document. -/
theorem C4_orphaned_document :
    (createWithFile [⟨"pdf_only", "PDF", ["pdf"], 10, false, false⟩] ⟨[], 0⟩ 7
        ⟨"contract.docx", 100, "h"⟩ "pdf_only" "Contract").1
      = .error (.versionError (.validation .invalid_extension)) ∧
    ((createWithFile [⟨"pdf_only", "PDF", ["pdf"], 10, false, false⟩] ⟨[], 0⟩ 7
        ⟨"contract.docx", 100, "h"⟩ "pdf_only" "Contract").2.docs.map
      (fun d => (d.row.title, d.row.owner_uuid, d.store.rows.length)))
      = [("Contract", 7, 0)] := by
  decide

/-- C5: against the spec-modelled `create_with_file` with the per-owner count
limit (`createWithFileChecked`): when the limit is positive and the owner
already holds at least that many non-deleted documents of the type, creation
fails with `max_count_exceeded` carrying the current count and the limit,
and the state is unchanged — no write happened; and a caller whose own count
is under the limit never receives `max_count_exceeded`, whatever the first
owner's count is. -/
theorem C5_max_count (catalog : List DocumentType) (maxC : Nat) (st : GState)
    (owner : Nat) (f : UploadedFile) (code : String) (title : String)
    (dt : DocumentType) (hdt : getByCode catalog code = some dt)
    (hpos : 0 < maxC) (hfull : maxC ≤ countOwnerTypeDocs st owner dt.code) :
    createWithFileChecked catalog maxC st owner f code title
        = (.error (.maxCountExceeded (countOwnerTypeDocs st owner dt.code) maxC),
            st) ∧
    (∀ owner', countOwnerTypeDocs st owner' dt.code < maxC →
      ∀ f' title' c l,
        (createWithFileChecked catalog maxC st owner' f' code title').1
          ≠ .error (.maxCountExceeded c l)) := by
  constructor
  · simp only [createWithFileChecked, hdt]
    rw [if_pos ⟨hpos, hfull⟩]
  · intro owner' hlt f' title' c l
    simp only [createWithFileChecked, hdt]
    rw [if_neg (fun hc => absurd hc.2 (by omega))]
    by_cases htc : titleConflict st owner' title'
    · rw [if_pos htc]
      simp
    · rw [if_neg htc]
      cases hv : saveNewVersion dt ⟨[]⟩ f' true true with
      | error e => simp
      | ok p => simp

/-- C5 witness: a type limited to 3 per owner, owner 1 at the limit, owner 2
with no documents. -/
theorem C5_max_count_witness :
    createWithFileChecked [⟨"lim", "L", [], 10, false, false⟩] 3
        ⟨[⟨⟨0, 1, "lim", "A", [], false⟩, ⟨[]⟩⟩,
          ⟨⟨1, 1, "lim", "B", [], false⟩, ⟨[]⟩⟩,
          ⟨⟨2, 1, "lim", "C", [], false⟩, ⟨[]⟩⟩], 3⟩ 1
        ⟨"d.txt", 9, "h"⟩ "lim" "D"
      = (.error (.maxCountExceeded
          (countOwnerTypeDocs
            ⟨[⟨⟨0, 1, "lim", "A", [], false⟩, ⟨[]⟩⟩,
              ⟨⟨1, 1, "lim", "B", [], false⟩, ⟨[]⟩⟩,
              ⟨⟨2, 1, "lim", "C", [], false⟩, ⟨[]⟩⟩], 3⟩ 1
            (⟨"lim", "L", [], 10, false, false⟩ : DocumentType).code) 3),
          ⟨[⟨⟨0, 1, "lim", "A", [], false⟩, ⟨[]⟩⟩,
            ⟨⟨1, 1, "lim", "B", [], false⟩, ⟨[]⟩⟩,
            ⟨⟨2, 1, "lim", "C", [], false⟩, ⟨[]⟩⟩], 3⟩) ∧
    (∀ owner', countOwnerTypeDocs
          ⟨[⟨⟨0, 1, "lim", "A", [], false⟩, ⟨[]⟩⟩,
            ⟨⟨1, 1, "lim", "B", [], false⟩, ⟨[]⟩⟩,
            ⟨⟨2, 1, "lim", "C", [], false⟩, ⟨[]⟩⟩], 3⟩ owner'
          (⟨"lim", "L", [], 10, false, false⟩ : DocumentType).code < 3 →
      ∀ f' title' c l,
        (createWithFileChecked [⟨"lim", "L", [], 10, false, false⟩] 3
            ⟨[⟨⟨0, 1, "lim", "A", [], false⟩, ⟨[]⟩⟩,
              ⟨⟨1, 1, "lim", "B", [], false⟩, ⟨[]⟩⟩,
              ⟨⟨2, 1, "lim", "C", [], false⟩, ⟨[]⟩⟩], 3⟩ owner' f' "lim" title').1
          ≠ .error (.maxCountExceeded c l)) :=
  C5_max_count [⟨"lim", "L", [], 10, false, false⟩] 3
    ⟨[⟨⟨0, 1, "lim", "A", [], false⟩, ⟨[]⟩⟩,
      ⟨⟨1, 1, "lim", "B", [], false⟩, ⟨[]⟩⟩,
      ⟨⟨2, 1, "lim", "C", [], false⟩, ⟨[]⟩⟩], 3⟩ 1
    ⟨"d.txt", 9, "h"⟩ "lim" "D" ⟨"lim", "L", [], 10, false, false⟩
    (by decide) (by decide) (by decide)

theorem lookupField_cons (a : String × Nat) (m : FieldMap) (k : String) :
    lookupField (a :: m) k = if a.1 = k then some a.2 else lookupField m k := by
  by_cases h : a.1 = k
  · rw [if_pos h]
    simp only [lookupField]
    rw [List.find?_cons_of_pos _ (by simpa using h)]
    rfl
  · rw [if_neg h]
    simp only [lookupField]
    rw [List.find?_cons_of_neg _ (by simpa using h)]

theorem lookupField_setField (m : FieldMap) (k k' : String) (v : Nat) :
    lookupField (setField m k v) k'
      = if k' = k then some v else lookupField m k' := by
  induction m with
  | nil =>
    simp only [setField]
    rw [lookupField_cons]
    by_cases h : k' = k
    · rw [if_pos h, if_pos h.symm]
    · rw [if_neg h, if_neg (fun (he : k = k') => h he.symm)]
  | cons a m ih =>
    by_cases hak : a.1 = k
    · simp only [setField, if_pos hak]
      rw [lookupField_cons, lookupField_cons]
      by_cases h : k' = k
      · rw [if_pos h, if_pos h.symm]
      · rw [if_neg h, if_neg (fun (he : k = k') => h he.symm),
          if_neg (fun (he : a.1 = k') => h (hak ▸ he).symm)]
    · simp only [setField, if_neg hak]
      rw [lookupField_cons, lookupField_cons]
      by_cases hk'a : a.1 = k'
      · have hk'k : k' ≠ k := fun he => hak (by rw [hk'a, he])
        rw [if_pos hk'a, if_neg hk'k, if_pos hk'a]
      · rw [if_neg hk'a, if_neg hk'a, ih]

theorem lookupField_applyKwargs_not_mem (row : FieldMap) (kw : FieldMap)
    (k : String) (hk : ∀ p ∈ kw, p.1 ≠ k) :
    lookupField (applyKwargs row kw) k = lookupField row k := by
  induction kw generalizing row with
  | nil => rfl
  | cons p kw ih =>
    simp only [applyKwargs, List.foldl_cons]
    have step := ih (setField row p.1 p.2)
      (fun q hq => hk q (List.mem_cons_of_mem _ hq))
    simp only [applyKwargs] at step
    rw [step, lookupField_setField,
      if_neg (fun he => hk p (List.mem_cons_self _ _) he.symm)]

theorem lookupField_applyKwargs_mem (row : FieldMap) (kw : FieldMap)
    (k : String) (v : Nat) (hnd : (kw.map (fun p => p.1)).Nodup)
    (hmem : (k, v) ∈ kw) :
    lookupField (applyKwargs row kw) k = some v := by
  induction kw generalizing row with
  | nil => cases hmem
  | cons p kw ih =>
    simp only [List.map_cons, List.nodup_cons] at hnd
    simp only [applyKwargs, List.foldl_cons]
    rcases List.mem_cons.mp hmem with he | hmem'
    · have hp1 : p.1 = k := by rw [← he]
      have hk : ∀ q ∈ kw, q.1 ≠ k := by
        intro q hq hqe
        apply hnd.1
        rw [hp1, ← hqe]
        exact List.mem_map_of_mem _ hq
      have step := lookupField_applyKwargs_not_mem (setField row p.1 p.2) kw k hk
      simp only [applyKwargs] at step
      rw [step, lookupField_setField, if_pos hp1.symm, ← he]
    · have step := ih (setField row p.1 p.2) hnd.2 hmem'
      simp only [applyKwargs] at step
      exact step

theorem lookupField_writeFields_not_mem (obj : FieldMap) (fields : List String)
    (row : FieldMap) (k : String) (hk : k ∉ fields) :
    lookupField (writeFields obj fields row) k = lookupField row k := by
  induction fields generalizing row with
  | nil => rfl
  | cons g fields ih =>
    have hkg : k ≠ g := fun he => hk (he ▸ List.mem_cons_self _ _)
    have hktl : k ∉ fields := fun hm => hk (List.mem_cons_of_mem _ hm)
    simp only [writeFields, List.foldl_cons]
    cases hog : lookupField obj g with
    | some v =>
      have step := ih (setField row g v) hktl
      simp only [writeFields] at step
      rw [lookupField_setField, if_neg hkg] at step
      exact step
    | none =>
      have step := ih row hktl
      simp only [writeFields] at step
      exact step

theorem lookupField_writeFields_mem (obj : FieldMap) (fields : List String)
    (row : FieldMap) (k : String) (v : Nat) (hmem : k ∈ fields)
    (hobj : lookupField obj k = some v) :
    lookupField (writeFields obj fields row) k = some v := by
  induction fields generalizing row with
  | nil => cases hmem
  | cons g fields ih =>
    simp only [writeFields, List.foldl_cons]
    by_cases hgk : g = k
    · subst hgk
      rw [hobj]
      by_cases hmem' : g ∈ fields
      · have step := ih (setField row g v) hmem'
        simp only [writeFields] at step
        exact step
      · have step := lookupField_writeFields_not_mem obj fields
          (setField row g v) g hmem'
        simp only [writeFields] at step
        rw [lookupField_setField, if_pos rfl] at step
        exact step
    · have hmem' : k ∈ fields := by
        rcases List.mem_cons.mp hmem with he | h
        · exact absurd he.symm hgk
        · exact h
      cases hog : lookupField obj g with
      | some w =>
        have step := ih (setField row g w) hmem'
        simp only [writeFields] at step
        exact step
      | none =>
        have step := ih row hmem'
        simp only [writeFields] at step
        exact step

/-- C8: neither bulk-update path ever writes `document_owner_uuid`.
Queryset `update`: the identifier binding of each row is untouched, every
other requested assignment is applied, and fields not mentioned keep their
values.  Manager `bulk_update`: each matched row keeps its identifier, and
every other listed field takes the in-memory object's value. -/
theorem C8_bulk_updates_preserve_uuid (rows : List FieldMap) (kwargs : FieldMap)
    (dbRows : List (Nat × FieldMap)) (objs : List (Nat × FieldMap))
    (fields : List String) (hnd : (kwargs.map (fun p => p.1)).Nodup) :
    (∀ r ∈ rows, ∃ r' ∈ ownerQuerySetUpdate rows kwargs,
        lookupField r' uuidFieldName = lookupField r uuidFieldName ∧
        (∀ k v, k ≠ uuidFieldName → (k, v) ∈ kwargs → lookupField r' k = some v) ∧
        (∀ k, (∀ v, (k, v) ∉ kwargs) → lookupField r' k = lookupField r k)) ∧
    (∀ pr ∈ dbRows, ∃ row', (pr.1, row') ∈ ownerBulkUpdate dbRows objs fields ∧
        lookupField row' uuidFieldName = lookupField pr.2 uuidFieldName ∧
        (∀ o, objs.find? (fun q => q.1 = pr.1) = some o →
          ∀ k v, k ≠ uuidFieldName → k ∈ fields → lookupField o.2 k = some v →
            lookupField row' k = some v)) := by
  constructor
  · intro r hr
    refine ⟨applyKwargs r (kwargs.filter (fun p => p.1 ≠ uuidFieldName)),
      List.mem_map_of_mem _ hr, ?_, ?_, ?_⟩
    · apply lookupField_applyKwargs_not_mem
      intro p hp
      have := (List.mem_filter.mp hp).2
      simpa using this
    · intro k v hku hkv
      apply lookupField_applyKwargs_mem
      · refine List.Nodup.sublist (List.Sublist.map _ (List.filter_sublist _)) hnd
      · exact List.mem_filter.mpr ⟨hkv, by simpa using hku⟩
    · intro k hnone
      apply lookupField_applyKwargs_not_mem
      intro p hp hpk
      have hpmem : p ∈ kwargs := (List.mem_filter.mp hp).1
      have : (k, p.2) ∈ kwargs := by
        rw [← hpk]
        exact hpmem
      exact hnone p.2 this
  · intro pr hpr
    cases hfind : objs.find? (fun q => q.1 = pr.1) with
    | none =>
      refine ⟨pr.2, ?_, rfl, ?_⟩
      · have hm := List.mem_map_of_mem
          (fun pq => match objs.find? (fun q => q.1 = pq.1) with
            | some o => (pq.1, writeFields o.2 (fields.filter (fun g => g ≠ uuidFieldName)) pq.2)
            | none => pq) hpr
        simpa [ownerBulkUpdate, hfind] using hm
      · intro o ho
        cases ho
    | some o0 =>
      refine ⟨writeFields o0.2 (fields.filter (fun g => g ≠ uuidFieldName)) pr.2,
        ?_, ?_, ?_⟩
      · have hm := List.mem_map_of_mem
          (fun pq => match objs.find? (fun q => q.1 = pq.1) with
            | some o => (pq.1, writeFields o.2 (fields.filter (fun g => g ≠ uuidFieldName)) pq.2)
            | none => pq) hpr
        simpa [ownerBulkUpdate, hfind] using hm
      · apply lookupField_writeFields_not_mem
        intro hm
        have := (List.mem_filter.mp hm).2
        simp at this
      · intro o ho k v hku hkf hobj
        cases ho
        apply lookupField_writeFields_mem
        · exact List.mem_filter.mpr ⟨hkf, by simpa using hku⟩
        · exact hobj

/-- C8 witness: one row with a set identifier; an update and a bulk_update
both asking to overwrite it touch the other field but not the identifier. -/
theorem C8_bulk_updates_preserve_uuid_witness :
    (∀ r ∈ [[(uuidFieldName, 1), ("name", 5)]],
      ∃ r' ∈ ownerQuerySetUpdate [[(uuidFieldName, 1), ("name", 5)]]
          [(uuidFieldName, 9), ("name", 7)],
        lookupField r' uuidFieldName = lookupField r uuidFieldName ∧
        (∀ k v, k ≠ uuidFieldName → (k, v) ∈ [(uuidFieldName, 9), ("name", 7)] →
          lookupField r' k = some v) ∧
        (∀ k, (∀ v, (k, v) ∉ [(uuidFieldName, 9), ("name", 7)]) →
          lookupField r' k = lookupField r k)) ∧
    (∀ pr ∈ [(1, [(uuidFieldName, 1), ("name", 5)])],
      ∃ row', (pr.1, row') ∈ ownerBulkUpdate [(1, [(uuidFieldName, 1), ("name", 5)])]
          [(1, [(uuidFieldName, 9), ("name", 7)])] [uuidFieldName, "name"] ∧
        lookupField row' uuidFieldName = lookupField pr.2 uuidFieldName ∧
        (∀ o, [(1, [(uuidFieldName, 9), ("name", 7)])].find? (fun q => q.1 = pr.1)
            = some o →
          ∀ k v, k ≠ uuidFieldName → k ∈ [uuidFieldName, "name"] →
            lookupField o.2 k = some v → lookupField row' k = some v)) :=
  C8_bulk_updates_preserve_uuid [[(uuidFieldName, 1), ("name", 5)]]
    [(uuidFieldName, 9), ("name", 7)] [(1, [(uuidFieldName, 1), ("name", 5)])]
    [(1, [(uuidFieldName, 9), ("name", 7)])] [uuidFieldName, "name"] (by decide)

/-- C9: the empty inputs — an empty list/tuple and a queryset or related
manager yielding no groups — make `in_groups` return the empty result set,
never the unfiltered document set. -/
theorem C9_empty_group_filter (self : List DocRow) :
    inGroups self (.listed []) = .ok [] ∧
    inGroups self (.queryset []) = .ok [] := by
  constructor <;> rfl

/-- C10: every read through the default document manager sees only documents
whose deletion timestamp is unset: the base queryset, the owner's
`get_documents`, and every successful `in_groups` filter chained from the
manager contain no soft-deleted document. -/
theorem C10_default_manager_hides_deleted (docs : List DocRow) :
    (∀ d ∈ documentsQS docs, d.deleted = false) ∧
    (∀ u d, d ∈ getDocuments u docs → d.deleted = false) ∧
    (∀ arg res d, inGroups (documentsQS docs) arg = .ok res → d ∈ res →
      d.deleted = false) := by
  have hqs : ∀ d ∈ documentsQS docs, d.deleted = false := by
    intro d hd
    have := (List.mem_filter.mp hd).2
    simpa using this
  refine ⟨hqs, ?_, ?_⟩
  · intro u d hd
    cases u with
    | none => cases hd
    | some x =>
      simp only [getDocuments] at hd
      exact hqs d (List.mem_filter.mp hd).1
  · intro arg res d hres hd
    cases arg with
    | queryset uuids =>
      simp only [inGroups] at hres
      by_cases he : uuids.isEmpty
      · rw [if_pos he] at hres
        cases hres
        cases hd
      · rw [if_neg he] at hres
        cases hres
        exact hqs d (List.mem_filter.mp hd).1
    | single g =>
      simp only [inGroups] at hres
      cases hres
      exact hqs d (List.mem_filter.mp hd).1
    | otherType =>
      simp only [inGroups] at hres
      cases hres
    | listed items =>
      simp only [inGroups] at hres
      by_cases he : items.isEmpty
      · rw [if_pos he] at hres
        cases hres
        cases hd
      · rw [if_neg he] at hres
        cases hv : validateUuids 0 items with
        | error e =>
          rw [hv] at hres
          cases hres
        | ok us =>
          rw [hv] at hres
          simp only [Except.map] at hres
          cases hres
          exact hqs d (List.mem_filter.mp hd).1

/-- C10 witness: with one live and one soft-deleted document, a document read
through the default manager is not deleted. -/
theorem C10_default_manager_hides_deleted_witness :
    (⟨0, 1, "c", "A", [5], false⟩ : DocRow).deleted = false :=
  (C10_default_manager_hides_deleted
      [⟨0, 1, "c", "A", [5], false⟩, ⟨1, 1, "c", "B", [5], true⟩]).1
    ⟨0, 1, "c", "A", [5], false⟩ (by decide)

end DocMgr
